import Mathlib

/-!
Verification of the two components specified for this repository fragment:

* the bounded brush-history recency list of
  `apps/opencs/view/widget/scenetooltexturebrush.cpp`
  (`SceneToolTextureBrush::updateBrushHistory`, the history swap in
  `SceneToolTextureBrush::clicked`, and the constructor seed), and

* the weighted text search and ranker of
  `apps/openmw/mwgui/settingswindow.cpp`
  (`escapeRegex`, `wordSearch`, `weightedSearch`,
  `SettingsWindow::renderScriptSettings`).

Strings are modelled as Lean `String` or `List Char`; `std::string`
comparison is byte-lexicographic, modelled by codepoint-lexicographic
comparison (identical on ASCII data).  The `std::regex` objects built by
`wordSearch` are modelled by their pattern strings together with an
interpreter for the small POSIX-ERE fragment that `wordSearch` can emit
(literal characters, backslash escapes, one level of grouping, top-level
alternation, and the fixed match-all sentinel).  All definitions are
executable.
-/

/-! ## Brush history (recency list) -/

/-- The seed history installed by the `SceneToolTextureBrush` constructor:
`mBrushHistory.resize(1); mBrushHistory[0] = "L0#0";`. -/
def initialBrushHistory : List String := ["L0#0"]

/-- `SceneToolTextureBrush::updateBrushHistory`: insert the used texture at
the front (`mBrushHistory.insert(mBrushHistory.begin(), brushTexture)`),
then `if (mBrushHistory.size() > 5) mBrushHistory.pop_back();`. -/
def updateBrushHistory (mBrushHistory : List String) (brushTexture : String) : List String :=
  let h := brushTexture :: mBrushHistory
  if 5 < h.length then h.dropLast else h

/-- The history mutation performed by `SceneToolTextureBrush::clicked` when a
history row is re-selected:
`std::swap(mBrushHistory[index.row()], mBrushHistory[0]);` (the spec calls
this operation `swapToFront`).  Out-of-range reads are modelled totally with
a default, matching the spec's statement that out-of-range positions are a
caller-side precondition. -/
def swapToFront (mBrushHistory : List String) (row : Nat) : List String :=
  (mBrushHistory.set row (mBrushHistory.getD 0 "")).set 0 (mBrushHistory.getD row "")

/-- Fold a sequence of `use` events (`updateBrushHistory` calls) over a
starting history, in call order. -/
def applyUses (uses : List String) (mBrushHistory : List String) : List String :=
  uses.foldl updateBrushHistory mBrushHistory

/-! ## Weighted text search and ranker: definitions -/

/-- Membership of the POSIX character class `[:space:]` in the C locale
(the tokenizing regex in `wordSearch` is `[^[:space:]]+`). -/
def isSpaceChar (c : Char) : Bool :=
  c = ' ' || c = '\t' || c = '\n' || c = '\x0B' || c = '\x0C' || c = '\r'

/-- Accumulator pass behind `tokenize`: splits the query into the maximal
runs of non-space characters matched one after another by the iterator over
`[^[:space:]]+` in `wordSearch`. -/
def tokenizeAux : List Char → List Char → List (List Char)
  | [], acc => if acc.isEmpty then [] else [acc.reverse]
  | c :: cs, acc =>
    if isSpaceChar c then
      if acc.isEmpty then tokenizeAux cs [] else acc.reverse :: tokenizeAux cs []
    else tokenizeAux cs (c :: acc)

/-- The word tokens of a query: maximal runs of non-`[:space:]` characters,
in order, as extracted by the `sregex_iterator` loop in `wordSearch`. -/
def tokenize (query : List Char) : List (List Char) := tokenizeAux query []

/-- The character class of `escapeRegex`, written in the source as the
POSIX extended regex `[\^\.\[\$\(\)\|\*\+\?\{]`.  Inside a POSIX bracket
expression a backslash loses its special meaning (POSIX.1 XBD 9.3.5), so
the bracket expression names twelve member characters: the backslash itself
plus the eleven characters it visually precedes.  (libstdc++ follows the
POSIX reading; the spec's list omits the backslash.) -/
def specialChars : List Char :=
  ['\\', '^', '.', '[', '$', '(', ')', '|', '*', '+', '?', '{']

/-- `escapeRegex`: `std::regex_replace(str, specialChars, "\$&")` prefixes
every occurrence of a class member with a backslash and copies every other
character unchanged. -/
def escapeRegex : List Char → List Char
  | [] => []
  | c :: cs => if c ∈ specialChars then '\\' :: c :: escapeRegex cs else c :: escapeRegex cs

/-- The alternation tail built by the loop in `wordSearch` for every token
after the first: each contributes a `|` followed by its escaped text. -/
def joinBarTail : List (List Char) → List Char
  | [] => []
  | u :: us => '|' :: (escapeRegex u ++ joinBarTail us)

/-- The full alternation body built by the loop in `wordSearch`: the first
escaped token followed by `|`-separated escaped tokens. -/
def joinBar : List (List Char) → List Char
  | [] => []
  | t :: ts => escapeRegex t ++ joinBarTail ts

/-- The match-all sentinel `^(.*)$` substituted by `wordSearch` when the
query had only whitespace characters. -/
def sentinelPattern : List Char := ['^', '(', '.', '*', ')', '$']

/-- The pattern string assembled by `wordSearch`: the escaped tokens joined
with `|`, wrapped in one group; if the result is the empty group `()` (the
query had only whitespace characters) the sentinel `^(.*)$` is used
instead. -/
def buildPattern (tokens : List (List Char)) : List Char :=
  let searchRegex := '(' :: (joinBar tokens ++ [')'])
  if searchRegex = ['(', ')'] then sentinelPattern else searchRegex

/-- `wordSearch`: the compiled `std::regex` is modelled by its pattern
string (compiled with `extended | icase`; case-insensitivity is modelled in
the matcher below). -/
def wordSearch (query : String) : List Char := buildPattern (tokenize query.data)

/-- The number of capturing groups (`std::regex::mark_count()`) of a
pattern in the emitted dialect: unescaped `(` opens a group, a backslash
escapes the following character. -/
def countGroups : List Char → Nat
  | [] => 0
  | [c] => if c = '(' then 1 else 0
  | c :: d :: cs =>
    if c = '\\' then countGroups cs
    else if c = '(' then countGroups (d :: cs) + 1
    else countGroups (d :: cs)

/-- Split a pattern at its unescaped `|` characters into alternation
branches.  In every pattern `wordSearch` emits, each unescaped `|` is a
top-level alternation separator. -/
def splitAlt : List Char → List (List Char)
  | [] => [[]]
  | c :: cs =>
    if c = '\\' then
      match cs with
      | [] => [['\\']]
      | d :: cs2 =>
        match splitAlt cs2 with
        | [] => [['\\', d]]
        | b :: bs => ('\\' :: d :: b) :: bs
    else if c = '|' then [] :: splitAlt cs
    else
      match splitAlt cs with
      | [] => [[c]]
      | b :: bs => (c :: b) :: bs

/-- The literal character sequence denoted by an alternation branch of an
emitted pattern: `\c` stands for the literal `c`, unescaped parentheses are
group markers (transparent for matching), every other character stands for
itself. -/
def literalContent : List Char → List Char
  | [] => []
  | c :: cs =>
    if c = '\\' then
      match cs with
      | [] => []
      | d :: cs2 => d :: literalContent cs2
    else if c = '(' || c = ')' then literalContent cs
    else c :: literalContent cs

/-- ASCII lower-casing as performed by `regex_constants::icase` with the
default C locale (`regex_traits::translate_nocase`). -/
def lowerChar (c : Char) : Char :=
  if 65 ≤ c.toNat ∧ c.toNat ≤ 90 then Char.ofNat (c.toNat + 32) else c

/-- Prefix test on character lists. -/
def leadsWith : List Char → List Char → Bool
  | [], _ => true
  | _ :: _, [] => false
  | p :: ps, t :: ts => p = t && leadsWith ps ts

/-- Contiguous-substring test on character lists. -/
def occursIn (pat : List Char) : List Char → Bool
  | [] => pat.isEmpty
  | t :: ts => leadsWith pat (t :: ts) || occursIn pat ts

/-- Case-insensitive contiguous-substring test. -/
def substrCI (pat text : List Char) : Bool :=
  occursIn (pat.map lowerChar) (text.map lowerChar)

/-- Whether `std::regex_search(text, matches, regex)` succeeds, for the
pattern dialect emitted by `wordSearch`: the sentinel `^(.*)$` matches every
text, and an alternation of literal branches matches iff some branch's
literal content occurs in the text as a case-insensitive substring
(`regex_search` looks for the pattern anywhere in the text). -/
def regexSearchMatches (pattern text : List Char) : Bool :=
  if pattern = sentinelPattern then true
  else (splitAlt pattern).any fun br => substrCI (literalContent br) text

/-- `weightedSearch`: runs `regex_search` and returns `matches.size()`.
For `std::smatch`, `size()` is `0` after a failed search and
`mark_count() + 1` (every capturing group plus the whole match) after a
successful one, independently of how many places in the text match.  The
source stores the value in a `double`; every value taken is a small
non-negative integer, modelled as `Int` so that the negation used by the
ranker is exact. -/
def weightedSearch (pattern text : List Char) : Int :=
  if regexSearchMatches pattern text then (countGroups pattern : Int) + 1 else 0

/-- `LuaUi::ScriptSettingsPage`: the two text fields the ranker reads. -/
structure ScriptSettingsPage where
  mName : String
  mSearchHints : String
deriving DecidableEq

/-- The `WeightedPage` record built in `SettingsWindow::renderScriptSettings`:
original index, display name, and the two scores stored negated. -/
structure WeightedPage where
  mIndex : Nat
  mName : String
  mNameWeight : Int
  mHintWeight : Int
deriving DecidableEq

/-- Lexicographic strict comparison of character lists, as performed by
`operator<` on `std::string` (byte-lexicographic; codepoint comparison
coincides with it on ASCII data). -/
def charListLt : List Char → List Char → Bool
  | [], [] => false
  | [], _ :: _ => true
  | _ :: _, [] => false
  | a :: as, b :: bs => if a < b then true else if b < a then false else charListLt as bs

/-- `WeightedPage::operator<`: `std::tie(mNameWeight, mHintWeight, mName)`
compared lexicographically. -/
def wpLtB (a b : WeightedPage) : Bool :=
  decide (a.mNameWeight < b.mNameWeight) ||
    (decide (a.mNameWeight = b.mNameWeight) &&
      (decide (a.mHintWeight < b.mHintWeight) ||
        (decide (a.mHintWeight = b.mHintWeight) &&
          charListLt a.mName.data b.mName.data)))

/-- The non-strict order `std::sort` establishes with `operator<`: `a` may
precede `b` exactly when `b < a` is false. -/
def wpLe (a b : WeightedPage) : Prop := wpLtB b a = false

instance : DecidableRel wpLe := fun a b => inferInstanceAs (Decidable (wpLtB b a = false))

/-- `SettingsWindow::renderScriptSettings`, restricted to the search and
ranking it performs: build the pattern from the filter text, score every
page's name and hints, keep the pages with positive combined score (with
negated scores recorded), and sort with `operator<`.  `std::sort` is
modelled by insertion sort: the stated properties (sortedness in `wpLe` and
permutation of the filtered records) are exactly those `std::sort`
guarantees. -/
def renderScriptSettings (query : String) (pages : List ScriptSettingsPage) :
    List WeightedPage :=
  let searchRegex := wordSearch query
  let weightedPages := pages.enum.filterMap fun p =>
    let nameWeight := weightedSearch searchRegex p.2.mName.data
    let hintWeight := weightedSearch searchRegex p.2.mSearchHints.data
    if nameWeight + hintWeight > 0 then
      some ⟨p.1, p.2.mName, -nameWeight, -hintWeight⟩
    else none
  List.insertionSort wpLe weightedPages

/-- The escape set as the spec's words claim it (taken from the spec for
comparison with `escapeRegex`): the eleven characters listed in spec
section 4.2 step 2, without the backslash. -/
def specClaimedEscapeSet : List Char :=
  ['^', '.', '[', '$', '(', ')', '|', '*', '+', '?', '{']

/-- The escaping function as the spec's words describe it (for comparison
with `escapeRegex`): prefix exactly the listed characters, leave every
other character unchanged. -/
def specEscapeRegex : List Char → List Char
  | [] => []
  | c :: cs =>
    if c ∈ specClaimedEscapeSet then '\\' :: c :: specEscapeRegex cs
    else c :: specEscapeRegex cs

/-! ## Brush history lemmas -/

theorem length_updateBrushHistory_le (h : List String) (x : String)
    (hle : h.length ≤ 5) : (updateBrushHistory h x).length ≤ 5 := by
  dsimp only [updateBrushHistory]
  split
  · next h5 =>
    simp only [List.length_dropLast, List.length_cons] at *
    omega
  · next h5 =>
    simp only [List.length_cons] at *
    omega

theorem headD_updateBrushHistory (h : List String) (x : String) :
    (updateBrushHistory h x).headD "" = x := by
  dsimp only [updateBrushHistory]
  split
  · next h5 =>
    match h with
    | [] => simp at h5
    | a :: t => simp [List.dropLast_cons₂]
  · simp

theorem length_applyUses_le (uses : List String) :
    ∀ h : List String, h.length ≤ 5 → (applyUses uses h).length ≤ 5 := by
  induction uses with
  | nil => intro h hle; simpa [applyUses] using hle
  | cons u us ih =>
    intro h hle
    simpa [applyUses, List.foldl_cons] using
      ih (updateBrushHistory h u) (length_updateBrushHistory_le h u hle)

/-- C3: for every finite sequence of `use(x)` calls applied to the seed
history, the length never exceeds 5, and after each call in the sequence the
identifier just used sits at position 0. -/
theorem brushHistory_bounded_and_mru (uses : List String) :
    (applyUses uses initialBrushHistory).length ≤ 5 ∧
    ∀ (p : List String) (x : String) (s : List String), uses = p ++ x :: s →
      (applyUses (p ++ [x]) initialBrushHistory).headD "" = x := by
  constructor
  · exact length_applyUses_le uses initialBrushHistory (by simp [initialBrushHistory])
  · intro p x s _
    have : applyUses (p ++ [x]) initialBrushHistory =
        updateBrushHistory (applyUses p initialBrushHistory) x := by
      simp [applyUses, List.foldl_append]
    rw [this, headD_updateBrushHistory]

/-- Witness for C3 at the concrete call sequence `use "A"; use "B"`. -/
theorem brushHistory_bounded_and_mru_witness :
    (applyUses ["A", "B"] initialBrushHistory).length ≤ 5 ∧
    (applyUses (["A"] ++ ["B"]) initialBrushHistory).headD "" = "B" :=
  ⟨(brushHistory_bounded_and_mru ["A", "B"]).1,
    (brushHistory_bounded_and_mru ["A", "B"]).2 ["A"] "B" [] rfl⟩

/-- C7: the call sequence A,B,C,D,E,F from the fresh (constructor-seeded)
history yields `[F,E,D,C,B]`, evicting both the seed entry and A. -/
theorem brushHistory_six_uses :
    applyUses ["A", "B", "C", "D", "E", "F"] initialBrushHistory =
      ["F", "E", "D", "C", "B"] := by decide

/-- C2 counterexample: the claim predicts `swapToFront 2` on `[A,B,C,D,E]`
rotates the first three entries to `[C,A,B,D,E]`; the code performs a plain
exchange of positions 0 and 2, giving `[C,B,A,D,E]`. -/
theorem swapToFront_not_rotation :
    swapToFront ["A", "B", "C", "D", "E"] 2 ≠ ["C", "A", "B", "D", "E"] := by decide

/-- C2 amended: `swapToFront 2` on `[A,B,C,D,E]` exchanges positions 0 and 2,
yielding `[C,B,A,D,E]`, and the list length is unchanged. -/
theorem swapToFront_concrete :
    swapToFront ["A", "B", "C", "D", "E"] 2 = ["C", "B", "A", "D", "E"] ∧
    (swapToFront ["A", "B", "C", "D", "E"] 2).length = 5 := by decide

theorem swapToFront_perm (h : List String) (row : Nat) (hrow : row < h.length) :
    (swapToFront h row).Perm h := by
  match h, row with
  | a :: t, 0 => simp [swapToFront]
  | a :: t, r + 1 =>
    have hr : r < t.length := by simpa using hrow
    have hexpand : swapToFront (a :: t) (r + 1) = t[r] :: t.set r a := by
      simp [swapToFront, List.getD_cons_succ, List.getD_cons_zero,
        List.getD_eq_getElem?_getD, List.getElem?_eq_getElem hr]
    rw [hexpand]
    have hset : t.set r a = t.take r ++ a :: t.drop (r + 1) := by
      rw [List.set_eq_take_append_cons_drop, if_pos hr]
    have ht : t = t.take r ++ t[r] :: t.drop (r + 1) := by
      conv_lhs => rw [← List.take_append_drop r t, ← List.getElem_cons_drop t r hr]
    rw [hset]
    conv_rhs => rw [ht]
    exact ((List.perm_middle.cons t[r]).trans
      (List.Perm.swap a t[r] _)).trans (List.perm_middle.symm.cons a)

/-- C10: re-selecting history row `row` (the swap in
`SceneToolTextureBrush::clicked`) exchanges exactly the entries at positions
`row` and 0, leaves every other position unchanged, and preserves the length
and the multiset of entries. -/
theorem clicked_swap_frame (h : List String) (row : Nat) (hrow : row < h.length) :
    (swapToFront h row).length = h.length ∧
    (swapToFront h row)[0]? = h[row]? ∧
    (swapToFront h row)[row]? = h[0]? ∧
    (∀ j : Nat, j ≠ 0 → j ≠ row → (swapToFront h row)[j]? = h[j]?) ∧
    (swapToFront h row).Perm h := by
  have hpos : 0 < h.length := Nat.lt_of_le_of_lt (Nat.zero_le row) hrow
  refine ⟨by simp [swapToFront, List.length_set], ?_, ?_, ?_, swapToFront_perm h row hrow⟩
  · rw [swapToFront, List.getElem?_set_self (by simp [List.length_set]; omega)]
    rw [List.getD_eq_getElem?_getD, List.getElem?_eq_getElem hrow]
    rfl
  · by_cases h0 : row = 0
    · subst h0
      rw [swapToFront, List.getElem?_set_self (by simp [List.length_set]; omega)]
      rw [List.getD_eq_getElem?_getD, List.getElem?_eq_getElem hpos]
      rfl
    · rw [swapToFront, List.getElem?_set_ne (fun hc => h0 hc.symm),
        List.getElem?_set_self hrow]
      rw [List.getD_eq_getElem?_getD, List.getElem?_eq_getElem hpos]
      rfl
  · intro j hj0 hjrow
    rw [swapToFront, List.getElem?_set_ne (fun hc => hj0 hc.symm),
      List.getElem?_set_ne (fun hc => hjrow hc.symm)]

/-- Witness for C10 at the concrete history `[A,B,C]`, row 2. -/
theorem clicked_swap_frame_witness :
    (swapToFront ["A", "B", "C"] 2).Perm ["A", "B", "C"] :=
  (clicked_swap_frame ["A", "B", "C"] 2 (by decide)).2.2.2.2

/-! ## Order lemmas for the ranking comparator -/

theorem charListLt_cons_iff {a b : Char} {as bs : List Char} :
    charListLt (a :: as) (b :: bs) = true ↔ a < b ∨ (a = b ∧ charListLt as bs = true) := by
  by_cases hab : a < b
  · simp [charListLt, hab]
  · by_cases hba : b < a
    · have hne : a ≠ b := ne_of_gt hba
      simp [charListLt, hab, hba, hne]
    · have heq : a = b := le_antisymm (not_lt.mp hba) (not_lt.mp hab)
      simp [charListLt, hab, hba, heq]

theorem charListLt_irrefl (l : List Char) : charListLt l l = false := by
  induction l with
  | nil => rfl
  | cons a as ih =>
    rw [Bool.eq_false_iff]
    intro h
    rcases charListLt_cons_iff.mp h with h1 | ⟨_, h2⟩
    · exact lt_irrefl a h1
    · rw [ih] at h2
      cases h2

theorem charListLt_asymm :
    ∀ {x y : List Char}, charListLt x y = true → charListLt y x = false := by
  intro x
  induction x with
  | nil =>
    intro y h
    cases y with
    | nil => cases h
    | cons b bs => rfl
  | cons a as ih =>
    intro y h
    cases y with
    | nil => cases h
    | cons b bs =>
      rw [Bool.eq_false_iff]
      intro h2
      rcases charListLt_cons_iff.mp h with h1 | ⟨he, hr⟩ <;>
        rcases charListLt_cons_iff.mp h2 with h1b | ⟨heb, hrb⟩
      · exact lt_asymm h1 h1b
      · exact absurd h1 (heb ▸ lt_irrefl b)
      · exact absurd h1b (he ▸ lt_irrefl a)
      · rw [ih hr] at hrb
        cases hrb

theorem charListLt_trans :
    ∀ {x y z : List Char}, charListLt x y = true → charListLt y z = true →
      charListLt x z = true := by
  intro x
  induction x with
  | nil =>
    intro y z h1 h2
    cases y with
    | nil => cases h1
    | cons b bs =>
      cases z with
      | nil => cases h2
      | cons c cs => rfl
  | cons a as ih =>
    intro y z h1 h2
    cases y with
    | nil => cases h1
    | cons b bs =>
      cases z with
      | nil => cases h2
      | cons c cs =>
        rcases charListLt_cons_iff.mp h1 with hab | ⟨hab, hr1⟩ <;>
          rcases charListLt_cons_iff.mp h2 with hbc | ⟨hbc, hr2⟩
        · exact charListLt_cons_iff.mpr (Or.inl (lt_trans hab hbc))
        · exact charListLt_cons_iff.mpr (Or.inl (hbc ▸ hab))
        · exact charListLt_cons_iff.mpr (Or.inl (hab ▸ hbc))
        · exact charListLt_cons_iff.mpr (Or.inr ⟨hab.trans hbc, ih hr1 hr2⟩)

theorem charListLt_conn :
    ∀ {x y : List Char}, charListLt x y = false → charListLt y x = false → x = y := by
  intro x
  induction x with
  | nil =>
    intro y h1 _
    cases y with
    | nil => rfl
    | cons b bs => cases h1
  | cons a as ih =>
    intro y h1 h2
    cases y with
    | nil => cases h2
    | cons b bs =>
      rw [Bool.eq_false_iff] at h1 h2
      by_cases hab : a < b
      · exact absurd (charListLt_cons_iff.mpr (Or.inl hab)) h1
      · by_cases hba : b < a
        · exact absurd (charListLt_cons_iff.mpr (Or.inl hba)) h2
        · have heq : a = b := le_antisymm (not_lt.mp hba) (not_lt.mp hab)
          have htail : as = bs := by
            apply ih <;> rw [Bool.eq_false_iff] <;> intro hc
            · exact h1 (charListLt_cons_iff.mpr (Or.inr ⟨heq, hc⟩))
            · exact h2 (charListLt_cons_iff.mpr (Or.inr ⟨heq.symm, hc⟩))
          rw [heq, htail]

theorem wpLtB_iff {a b : WeightedPage} :
    wpLtB a b = true ↔ a.mNameWeight < b.mNameWeight ∨
      (a.mNameWeight = b.mNameWeight ∧ (a.mHintWeight < b.mHintWeight ∨
        (a.mHintWeight = b.mHintWeight ∧ charListLt a.mName.data b.mName.data = true))) := by
  simp [wpLtB, Bool.or_eq_true, Bool.and_eq_true, decide_eq_true_iff]

theorem wpLtB_self_false {a b : WeightedPage} (h1 : a.mNameWeight = b.mNameWeight)
    (h2 : a.mHintWeight = b.mHintWeight) (h3 : a.mName.data = b.mName.data) :
    wpLtB a b = false := by
  rw [Bool.eq_false_iff]
  intro h
  rcases wpLtB_iff.mp h with hn | ⟨_, hh | ⟨_, hs⟩⟩
  · omega
  · omega
  · rw [h3, charListLt_irrefl] at hs
    cases hs

theorem wpLtB_asymm {a b : WeightedPage} (h : wpLtB a b = true) : wpLtB b a = false := by
  rw [Bool.eq_false_iff]
  intro h2
  rcases wpLtB_iff.mp h with hn | ⟨hn, hh | ⟨hh, hs⟩⟩ <;>
    rcases wpLtB_iff.mp h2 with hn2 | ⟨hn2, hh2 | ⟨hh2, hs2⟩⟩ <;> try omega
  rw [charListLt_asymm hs] at hs2
  cases hs2

theorem wpLtB_trans {a b c : WeightedPage} (h1 : wpLtB a b = true)
    (h2 : wpLtB b c = true) : wpLtB a c = true := by
  rw [wpLtB_iff] at h1 h2 ⊢
  rcases h1 with hn | ⟨hn, hrest⟩
  · rcases h2 with hn2 | ⟨hn2, _⟩
    · left; omega
    · left; omega
  · rcases h2 with hn2 | ⟨hn2, hrest2⟩
    · left; omega
    · rcases hrest with hh | ⟨hh, hs⟩
      · rcases hrest2 with hh2 | ⟨hh2, _⟩
        · exact Or.inr ⟨by omega, Or.inl (by omega)⟩
        · exact Or.inr ⟨by omega, Or.inl (by omega)⟩
      · rcases hrest2 with hh2 | ⟨hh2, hs2⟩
        · exact Or.inr ⟨by omega, Or.inl (by omega)⟩
        · exact Or.inr ⟨by omega, Or.inr ⟨by omega, charListLt_trans hs hs2⟩⟩

theorem wpLtB_congr_left {a b c : WeightedPage} (h1 : a.mNameWeight = b.mNameWeight)
    (h2 : a.mHintWeight = b.mHintWeight) (h3 : a.mName.data = b.mName.data) :
    wpLtB a c = wpLtB b c := by
  simp [wpLtB, h1, h2, h3]

theorem wpLtB_congr_right {a b c : WeightedPage} (h1 : a.mNameWeight = b.mNameWeight)
    (h2 : a.mHintWeight = b.mHintWeight) (h3 : a.mName.data = b.mName.data) :
    wpLtB c a = wpLtB c b := by
  simp [wpLtB, h1, h2, h3]

theorem wpLtB_false_cases {a b : WeightedPage} (h : wpLtB a b = false) :
    wpLtB b a = true ∨ (a.mNameWeight = b.mNameWeight ∧
      a.mHintWeight = b.mHintWeight ∧ a.mName.data = b.mName.data) := by
  by_cases hba : wpLtB b a = true
  · exact Or.inl hba
  · right
    rw [Bool.eq_false_iff] at h
    have hn : a.mNameWeight = b.mNameWeight := by
      by_contra hne
      rcases lt_or_gt_of_ne hne with hlt | hgt
      · exact h (wpLtB_iff.mpr (Or.inl hlt))
      · exact hba (wpLtB_iff.mpr (Or.inl hgt))
    have hh : a.mHintWeight = b.mHintWeight := by
      by_contra hne
      rcases lt_or_gt_of_ne hne with hlt | hgt
      · exact h (wpLtB_iff.mpr (Or.inr ⟨hn, Or.inl hlt⟩))
      · exact hba (wpLtB_iff.mpr (Or.inr ⟨hn.symm, Or.inl hgt⟩))
    refine ⟨hn, hh, ?_⟩
    apply charListLt_conn <;> rw [Bool.eq_false_iff] <;> intro hc
    · exact h (wpLtB_iff.mpr (Or.inr ⟨hn, Or.inr ⟨hh, hc⟩⟩))
    · exact hba (wpLtB_iff.mpr (Or.inr ⟨hn.symm, Or.inr ⟨hh.symm, hc⟩⟩))

theorem wpLe_total (a b : WeightedPage) : wpLe a b ∨ wpLe b a := by
  by_cases h : wpLtB b a = true
  · exact Or.inr (wpLtB_asymm h)
  · exact Or.inl (Bool.eq_false_iff.mpr h)

theorem wpLe_trans (a b c : WeightedPage) (h1 : wpLe a b) (h2 : wpLe b c) :
    wpLe a c := by
  unfold wpLe at *
  rcases wpLtB_false_cases h1 with hab | ⟨hn, hh, hs⟩
  · rcases wpLtB_false_cases h2 with hbc | ⟨hn2, hh2, hs2⟩
    · exact wpLtB_asymm (wpLtB_trans hab hbc)
    · rw [wpLtB_congr_left hn2 hh2 hs2]
      exact h1
  · rw [wpLtB_congr_right hn.symm hh.symm hs.symm]
    exact h2

/-! ## Pattern lemmas -/

theorem countGroups_esc (d : Char) (cs : List Char) :
    countGroups ('\\' :: d :: cs) = countGroups cs := rfl

theorem countGroups_other {c : Char} (hc1 : c ≠ '\\') (hc2 : c ≠ '(')
    (cs : List Char) : countGroups (c :: cs) = countGroups cs := by
  cases cs with
  | nil => simp [countGroups, hc2]
  | cons d cs2 => simp [countGroups, hc1, hc2]

theorem countGroups_paren (cs : List Char) :
    countGroups ('(' :: cs) = countGroups cs + 1 := by
  cases cs with
  | nil => rfl
  | cons d cs2 => rfl

theorem backslash_mem_specialChars : '\\' ∈ specialChars := by decide

theorem paren_mem_specialChars : '(' ∈ specialChars := by decide

theorem countGroups_escapeRegex_append (t rest : List Char) :
    countGroups (escapeRegex t ++ rest) = countGroups rest := by
  induction t with
  | nil => rfl
  | cons c cs ih =>
    by_cases hc : c ∈ specialChars
    · rw [escapeRegex, if_pos hc, List.cons_append, List.cons_append, countGroups_esc, ih]
    · have hc1 : c ≠ '\\' := fun he => hc (he ▸ backslash_mem_specialChars)
      have hc2 : c ≠ '(' := fun he => hc (he ▸ paren_mem_specialChars)
      rw [escapeRegex, if_neg hc, List.cons_append, countGroups_other hc1 hc2, ih]

theorem countGroups_joinBarTail (ts : List (List Char)) (rest : List Char) :
    countGroups (joinBarTail ts ++ rest) = countGroups rest := by
  induction ts with
  | nil => rfl
  | cons u us ih =>
    rw [joinBarTail, List.cons_append,
      countGroups_other (by decide) (by decide), List.append_assoc,
      countGroups_escapeRegex_append, ih]

/-- Every pattern `wordSearch` can emit has exactly one capturing group:
either the sentinel `^(.*)$`, or the single wrapping group (escaping makes
every token character, the backslash included, contribute no group). -/
theorem countGroups_buildPattern (tokens : List (List Char)) :
    countGroups (buildPattern tokens) = 1 := by
  dsimp only [buildPattern]
  split
  · decide
  · rw [countGroups_paren]
    cases tokens with
    | nil => decide
    | cons t ts =>
      rw [joinBar, List.append_assoc, countGroups_escapeRegex_append,
        countGroups_joinBarTail]
      decide

theorem weightedSearch_nonneg (pattern text : List Char) :
    0 ≤ weightedSearch pattern text := by
  dsimp only [weightedSearch]
  split
  · omega
  · omega

/-- C9: for every query and every text, the per-field score computed by
`weightedSearch` over the pattern built by `wordSearch` is either 0 (failed
search) or exactly 2 (the whole match plus the pattern's single capturing
group at the first match location); it does not grow with the number of
matching tokens or occurrences. -/
theorem weightedSearch_binary (q : String) (text : List Char) :
    countGroups (wordSearch q) = 1 ∧
    (weightedSearch (wordSearch q) text = 0 ∨
      weightedSearch (wordSearch q) text = 2) := by
  have h1 : countGroups (wordSearch q) = 1 := countGroups_buildPattern _
  refine ⟨h1, ?_⟩
  dsimp only [weightedSearch]
  split
  · rw [h1]
    right
    rfl
  · left
    rfl

/-! ## Tokenizer and pattern-shape lemmas -/

theorem tokenizeAux_mem_ne_nil :
    ∀ (cs acc t : List Char), t ∈ tokenizeAux cs acc → t ≠ [] := by
  intro cs
  induction cs with
  | nil =>
    intro acc t hmem
    dsimp only [tokenizeAux] at hmem
    split at hmem
    · cases hmem
    · next hne =>
      rw [List.mem_singleton] at hmem
      subst hmem
      intro hrev
      rw [List.reverse_eq_nil_iff] at hrev
      rw [hrev] at hne
      exact hne rfl
  | cons c cs ih =>
    intro acc t hmem
    dsimp only [tokenizeAux] at hmem
    split at hmem
    · split at hmem
      · exact ih [] t hmem
      · next hne =>
        rcases List.mem_cons.mp hmem with hh | hh
        · subst hh
          intro hrev
          rw [List.reverse_eq_nil_iff] at hrev
          rw [hrev] at hne
          exact hne rfl
        · exact ih [] t hh
    · exact ih (c :: acc) t hmem

theorem escapeRegex_ne_nil {t : List Char} (h : t ≠ []) : escapeRegex t ≠ [] := by
  cases t with
  | nil => exact absurd rfl h
  | cons c cs =>
    dsimp only [escapeRegex]
    split
    · exact List.cons_ne_nil _ _
    · exact List.cons_ne_nil _ _

theorem joinBar_ne_nil_of_tokens {t : List Char} {ts : List (List Char)}
    (h : t ≠ []) : joinBar (t :: ts) ≠ [] := by
  rw [joinBar]
  intro hnil
  rcases List.append_eq_nil.mp hnil with ⟨h1, _⟩
  exact escapeRegex_ne_nil h h1

/-- C8 counterexample: on the one-character input consisting of a single
backslash, `escapeRegex` (whose POSIX bracket expression contains the
backslash as a literal member) escapes it, while the escaping function the
spec describes (exactly the eleven listed characters, all others unchanged)
leaves it alone. -/
theorem escapeRegex_escapes_backslash :
    escapeRegex ['\\'] = ['\\', '\\'] ∧ specEscapeRegex ['\\'] = ['\\'] ∧
    escapeRegex ['\\'] ≠ specEscapeRegex ['\\'] := by decide

/-- C8 amended: `escapeRegex` prefixes a backslash to every occurrence of a
character of its class — the eleven characters the spec lists plus the
backslash itself — and leaves every other character unchanged; `wordSearch`
joins the escaped tokens of a tokenizable query with `|` and wraps the
alternation in one capturing group; matching is case-insensitive (the
match result depends on the text only through its lower-cased image). -/
theorem escapeRegex_and_pattern_shape (s : List Char) (q : String)
    (hq : tokenize q.data ≠ []) (p t₁ t₂ : List Char)
    (ht : t₁.map lowerChar = t₂.map lowerChar) :
    escapeRegex s =
      s.flatMap (fun c => if c ∈ specialChars then ['\\', c] else [c]) ∧
    wordSearch q = '(' :: (joinBar (tokenize q.data) ++ [')']) ∧
    regexSearchMatches p t₁ = regexSearchMatches p t₂ := by
  refine ⟨?_, ?_, ?_⟩
  · induction s with
    | nil => rfl
    | cons c cs ih =>
      rw [escapeRegex, List.flatMap_cons]
      by_cases hc : c ∈ specialChars
      · rw [if_pos hc, if_pos hc, ih]
        rfl
      · rw [if_neg hc, if_neg hc, ih]
        rfl
  · dsimp only [wordSearch, buildPattern]
    cases htok : tokenize q.data with
    | nil => exact absurd htok hq
    | cons t ts =>
      have htne : t ≠ [] := by
        refine tokenizeAux_mem_ne_nil q.data [] t ?_
        have : t ∈ tokenize q.data := by
          rw [htok]
          exact List.mem_cons_self t ts
        exact this
      rw [if_neg]
      intro hc
      have hlen : ('(' :: (joinBar (t :: ts) ++ [')'])).length = 2 := by
        rw [hc]
        rfl
      have hjb : (joinBar (t :: ts)).length = 0 := by
        simp only [List.length_cons, List.length_append, List.length_singleton] at hlen
        omega
      exact joinBar_ne_nil_of_tokens htne (List.length_eq_zero.mp hjb)
  · dsimp only [regexSearchMatches]
    split
    · rfl
    · simp only [substrCI, ht]

/-- Witness for the amended C8 at concrete inputs: token text with a dot,
the query consisting of that token, a pattern, and two case-equivalent
texts. -/
theorem escapeRegex_and_pattern_shape_witness :
    escapeRegex "a.b".data =
      "a.b".data.flatMap (fun c => if c ∈ specialChars then ['\\', c] else [c]) ∧
    wordSearch "a.b" = '(' :: (joinBar (tokenize "a.b".data) ++ [')']) ∧
    regexSearchMatches (wordSearch "fire") "Xz".data =
      regexSearchMatches (wordSearch "fire") "xZ".data :=
  escapeRegex_and_pattern_shape "a.b".data "a.b" (by decide)
    (wordSearch "fire") "Xz".data "xZ".data (by decide)

/-! ## Ranker lemmas -/

theorem renderScriptSettings_eq (q : String) (pages : List ScriptSettingsPage) :
    renderScriptSettings q pages =
      List.insertionSort wpLe (pages.enum.filterMap fun p =>
        if weightedSearch (wordSearch q) p.2.mName.data +
            weightedSearch (wordSearch q) p.2.mSearchHints.data > 0 then
          some ⟨p.1, p.2.mName, -(weightedSearch (wordSearch q) p.2.mName.data),
            -(weightedSearch (wordSearch q) p.2.mSearchHints.data)⟩
        else none) := rfl

/-- C1: for every query and candidate set, the ranker's output contains
exactly the candidates whose combined name-score plus hint-score is nonzero
(recorded with both scores negated), and it is sorted ascending in the order
`wpLe` induced by `WeightedPage::operator<`, which compares the tuple
(negated name-score, negated hint-score, name) lexicographically — higher
score first, hint-score as tiebreaker, name as final tiebreaker. -/
theorem renderScriptSettings_filter_and_sort (q : String)
    (pages : List ScriptSettingsPage) :
    (∀ wp : WeightedPage, wp ∈ renderScriptSettings q pages ↔
      ∃ i : Nat, ∃ page : ScriptSettingsPage, pages[i]? = some page ∧
        weightedSearch (wordSearch q) page.mName.data +
          weightedSearch (wordSearch q) page.mSearchHints.data ≠ 0 ∧
        wp = ⟨i, page.mName, -(weightedSearch (wordSearch q) page.mName.data),
          -(weightedSearch (wordSearch q) page.mSearchHints.data)⟩) ∧
    List.Sorted wpLe (renderScriptSettings q pages) := by
  constructor
  · intro wp
    rw [renderScriptSettings_eq, (List.perm_insertionSort wpLe _).mem_iff,
      List.mem_filterMap]
    constructor
    · rintro ⟨p, hmem, hf⟩
      refine ⟨p.1, p.2, List.mem_enum_iff_getElem?.mp hmem, ?_⟩
      split at hf
      · next hpos =>
        refine ⟨by omega, ?_⟩
        exact (Option.some_inj.mp hf).symm
      · cases hf
    · rintro ⟨i, page, hget, hne, rfl⟩
      refine ⟨(i, page), List.mem_enum_iff_getElem?.mpr hget, ?_⟩
      have hn1 := weightedSearch_nonneg (wordSearch q) page.mName.data
      have hn2 := weightedSearch_nonneg (wordSearch q) page.mSearchHints.data
      dsimp only
      rw [if_pos (by omega)]
  · rw [renderScriptSettings_eq]
    exact @List.sorted_insertionSort _ wpLe _ ⟨wpLe_total⟩ ⟨wpLe_trans⟩ _

/-- C6: the query fire against the two candidates Fireball (name match) and
Ice Spike (hint match only) returns both, the name match ranked first; both
scores are 2 on the matched field and 0 on the other. -/
theorem fire_query_ranking :
    renderScriptSettings "fire"
        [⟨"Fireball", ""⟩, ⟨"Ice Spike", "fire resistant"⟩] =
      [⟨0, "Fireball", -2, 0⟩, ⟨1, "Ice Spike", 0, -2⟩] ∧
    (renderScriptSettings "fire"
        [⟨"Fireball", ""⟩, ⟨"Ice Spike", "fire resistant"⟩]).map
      (fun wp => (wp.mName, wp.mIndex)) = [("Fireball", 0), ("Ice Spike", 1)] := by
  decide

/-! ## Empty and whitespace query lemmas -/

theorem weightedSearch_sentinel (text : List Char) :
    weightedSearch sentinelPattern text = 2 := by
  have hm : regexSearchMatches sentinelPattern text = true := by
    dsimp only [regexSearchMatches]
    rw [if_pos rfl]
  dsimp only [weightedSearch]
  rw [hm, if_pos rfl]
  decide

theorem renderScriptSettings_empty_query (pages : List ScriptSettingsPage) :
    renderScriptSettings "" pages =
      List.insertionSort wpLe
        (pages.enum.map fun p => ⟨p.1, p.2.mName, -2, -2⟩) := by
  rw [renderScriptSettings_eq]
  congr 1
  have hf : (fun p : Nat × ScriptSettingsPage =>
      if weightedSearch (wordSearch "") p.2.mName.data +
          weightedSearch (wordSearch "") p.2.mSearchHints.data > 0 then
        some (⟨p.1, p.2.mName, -(weightedSearch (wordSearch "") p.2.mName.data),
          -(weightedSearch (wordSearch "") p.2.mSearchHints.data)⟩ : WeightedPage)
      else none) =
      fun p : Nat × ScriptSettingsPage =>
        some (⟨p.1, p.2.mName, -2, -2⟩ : WeightedPage) := by
    funext p
    rw [show wordSearch "" = sentinelPattern from rfl,
      weightedSearch_sentinel, weightedSearch_sentinel]
    norm_num
  rw [hf]
  exact congrFun (List.filterMap_eq_map _) _

/-- C4: the empty query filters nothing out: the output is (a permutation
of) every candidate, each carrying the equal scores produced by the
match-all sentinel, and the output order is ascending by name (the only
live component of the tiebreak tuple); the empty query produces the
sentinel pattern, not an error. -/
theorem emptyQuery_returns_all (pages : List ScriptSettingsPage)
    (hne : pages ≠ []) :
    wordSearch "" = sentinelPattern ∧
    (renderScriptSettings "" pages).Perm
      (pages.enum.map fun p => ⟨p.1, p.2.mName, -2, -2⟩) ∧
    (renderScriptSettings "" pages).length = pages.length ∧
    List.Pairwise
      (fun a b : WeightedPage => charListLt b.mName.data a.mName.data = false)
      (renderScriptSettings "" pages) ∧
    renderScriptSettings "" pages ≠ [] := by
  have hperm : (renderScriptSettings "" pages).Perm
      (pages.enum.map fun p => ⟨p.1, p.2.mName, -2, -2⟩) := by
    rw [renderScriptSettings_empty_query]
    exact List.perm_insertionSort wpLe _
  have hlen : (renderScriptSettings "" pages).length = pages.length := by
    rw [hperm.length_eq, List.length_map, List.enum_length]
  refine ⟨rfl, hperm, hlen, ?_, ?_⟩
  · have hsorted : List.Sorted wpLe (renderScriptSettings "" pages) := by
      rw [renderScriptSettings_empty_query]
      exact @List.sorted_insertionSort _ wpLe _ ⟨wpLe_total⟩ ⟨wpLe_trans⟩ _
    have hmemw : ∀ wp : WeightedPage, wp ∈ renderScriptSettings "" pages →
        wp.mNameWeight = -2 ∧ wp.mHintWeight = -2 := by
      intro wp hwp
      rcases List.mem_map.mp (hperm.mem_iff.mp hwp) with ⟨p, _, hp⟩
      rw [← hp]
      exact ⟨rfl, rfl⟩
    refine List.Pairwise.imp_of_mem ?_ hsorted
    intro a b ha hb hle
    rcases hmemw a ha with ⟨ha1, ha2⟩
    rcases hmemw b hb with ⟨hb1, hb2⟩
    rw [Bool.eq_false_iff]
    intro hstr
    have hlt : wpLtB b a = true :=
      wpLtB_iff.mpr (Or.inr ⟨by omega, Or.inr ⟨by omega, hstr⟩⟩)
    rw [hle] at hlt
    cases hlt
  · intro hnil
    rw [hnil] at hlen
    exact hne (List.length_eq_zero.mp (by simpa using hlen.symm))

/-- Witness for C4 at the concrete candidate set with names B and A. -/
theorem emptyQuery_returns_all_witness :
    (renderScriptSettings "" [⟨"B", "x"⟩, ⟨"A", "y"⟩]).Perm
      (([⟨"B", "x"⟩, ⟨"A", "y"⟩] : List ScriptSettingsPage).enum.map
        fun p => ⟨p.1, p.2.mName, -2, -2⟩) :=
  (emptyQuery_returns_all [⟨"B", "x"⟩, ⟨"A", "y"⟩] (by decide)).2.1

theorem tokenizeAux_all_space (cs : List Char)
    (h : ∀ c ∈ cs, isSpaceChar c = true) : tokenizeAux cs [] = [] := by
  induction cs with
  | nil => rfl
  | cons c cs ih =>
    have hc := h c (List.mem_cons_self c cs)
    dsimp only [tokenizeAux]
    rw [hc]
    simp only [if_true, List.isEmpty_nil]
    exact ih fun d hd => h d (List.mem_cons_of_mem _ hd)

/-- C5: a query consisting only of whitespace characters produces the same
pattern as the empty query (the match-all sentinel) and hence exactly the
same filtered, ranked output on every candidate set. -/
theorem whitespace_query_like_empty (q : String)
    (hws : ∀ c ∈ q.data, isSpaceChar c = true)
    (pages : List ScriptSettingsPage) :
    wordSearch q = wordSearch "" ∧
    renderScriptSettings q pages = renderScriptSettings "" pages := by
  have htok : tokenize q.data = [] := tokenizeAux_all_space q.data hws
  have hpat : wordSearch q = wordSearch "" := by
    dsimp only [wordSearch]
    rw [htok]
    rfl
  refine ⟨hpat, ?_⟩
  rw [renderScriptSettings_eq, renderScriptSettings_eq, hpat]

/-- Witness for C5 at the concrete whitespace query of a space and a tab. -/
theorem whitespace_query_like_empty_witness :
    wordSearch " \t" = wordSearch "" ∧
    renderScriptSettings " \t" [⟨"X", "Y"⟩] =
      renderScriptSettings "" [⟨"X", "Y"⟩] :=
  whitespace_query_like_empty " \t" (by decide) [⟨"X", "Y"⟩]
